import Mathlib

/-!
Shallow embedding of the adaptive segmentation engine of the
`analysis_libtard` repository (src/segmentation/index.ts,
src/segmentation/kneedle.ts, the volley builder in src/unnamed/part_009 and
time utilities in src/unnamed/part_002), together with proofs about the
claims of its specification.

Modelling conventions:
* JavaScript `Date` values are modelled by their epoch-millisecond value
  (`Time := Int`); `parseDate` is the identity on already-parsed times, so
  `Message.sent_at` is stored directly in epoch milliseconds.
* JavaScript numbers used for gaps and timeouts are modelled by `ℚ`
  (`getGapSeconds` divides a millisecond difference by 1000, which is exact
  over the rationals; no claim depends on binary floating point rounding).
* `Array.prototype.sort` (ES2019+: stable) is modelled by a stable insertion
  sort `sortLe`.  The default comparator (used on the participant id arrays)
  compares the decimal string renderings of the numbers; this is modelled by
  the lexicographic order on the lists of character codes of those renderings
  (`numKey`, `lexLeN`).
* `Array.from(new Set(xs))` (first-occurrence de-duplication, insertion
  order) is modelled by `jsDedup`.
-/

namespace Libtard



/-- Epoch milliseconds, the value of a JavaScript `Date`. -/
abbrev Time := Int

/-- `Message` from src/types.ts.  `sent_at` holds the parsed timestamp
(`parseDate` from src/unnamed/part_002 is the identity on parsed dates). -/
structure Message where
  ID : Int
  chat_id : Int
  from_id : Int
  content : String
  sent_at : Time
  message_id : String
  deriving Repr, DecidableEq

instance : Inhabited Message := ⟨⟨0, 0, 0, "", 0, ""⟩⟩

/-- `Turn` from src/types.ts. -/
structure Turn where
  messages : List Message
  sender_id : Int
  start_time : Time
  end_time : Time
  deriving Repr, DecidableEq

instance : Inhabited Turn := ⟨⟨[], 0, 0, 0⟩⟩

/-- `Volley` from src/types.ts. -/
structure Volley where
  id : String
  turns : List Turn
  participants : List Int
  start_time : Time
  end_time : Time
  depth : Nat
  message_count : Nat
  pivot_text : String
  deriving Repr, DecidableEq

instance : Inhabited Volley := ⟨⟨"", [], [], 0, 0, 0, 0, ""⟩⟩

/-- `Session` from src/types.ts. -/
structure Session where
  volleys : List Volley
  participants : List Int
  start_time : Time
  end_time : Time
  duration_minutes : ℚ
  deriving Repr, DecidableEq

/-- `getGapSeconds` from src/unnamed/part_002:
`Math.abs(date2.getTime() - date1.getTime()) / 1000`. -/
def getGapSeconds (date1 date2 : Time) : ℚ :=
  ((date2 - date1).natAbs : ℚ) / 1000

/-! ### Stable sorting (model of `Array.prototype.sort`) -/

/-- Insert `a` into `l` in front of the first element `b` with `le a b`.
Together with `sortLe` this is a stable insertion sort, the model of the
(ES2019+, stable) `Array.prototype.sort`. -/
def insertLe (le : α → α → Bool) (a : α) : List α → List α
  | [] => [a]
  | b :: bs => if le a b then a :: b :: bs else b :: insertLe le a bs

/-- Stable insertion sort. -/
def sortLe (le : α → α → Bool) : List α → List α
  | [] => []
  | a :: as => insertLe le a (sortLe le as)

/-! ### De-duplication (model of `Array.from(new Set(xs))`) -/

/-- Worker for `jsDedup`: keep the first occurrence of every element,
in insertion order, skipping anything already seen. -/
def dedupFirstAux (seen : List Int) : List Int → List Int
  | [] => []
  | x :: xs => if x ∈ seen then dedupFirstAux seen xs else x :: dedupFirstAux (x :: seen) xs

/-- Model of `Array.from(new Set(l))`: first-occurrence de-duplication in
insertion order. -/
def jsDedup (l : List Int) : List Int := dedupFirstAux [] l

/-! ### The JS default sort comparator on numbers

`Array.prototype.sort()` without a comparator compares the string renderings
of the elements (UTF-16 lexicographic).  For integer ids the rendering is the
decimal numeral (with a leading `-` for negative values), and on ASCII the
UTF-16 comparison is the comparison of character codes.  `numKey i` is the
list of character codes of the decimal rendering of `i`, and `lexLeN` the
lexicographic order on those code lists. -/

/-- Lexicographic order on lists of `Nat` (character codes). -/
def lexLeN : List Nat → List Nat → Bool
  | [], _ => true
  | _ :: _, [] => false
  | a :: as, b :: bs => if a < b then true else if b < a then false else lexLeN as bs

/-- Value of a little-endian (least significant digit first) base-10 digit list. -/
def ofDigitsRev : List Nat → Nat
  | [] => 0
  | d :: ds => d + 10 * ofDigitsRev ds

/-- Base-10 digits of `n`, least significant first, with explicit fuel
(structural recursion so that the kernel can evaluate it). -/
def digitsRevFuel : Nat → Nat → List Nat
  | 0, _ => []
  | fuel + 1, n => if n = 0 then [] else (n % 10) :: digitsRevFuel fuel (n / 10)

/-- Base-10 digits of `n`, most significant first (`0` rendered as `[0]`). -/
def decDigits (n : Nat) : List Nat :=
  if n = 0 then [0] else (digitsRevFuel n n).reverse

/-- Character codes of the JS decimal string rendering of an integer:
`45` is `-`, a digit `d` is `48 + d`. -/
def numKey (i : Int) : List Nat :=
  if i < 0 then 45 :: (decDigits (-i).toNat).map (fun d => 48 + d)
  else (decDigits i.toNat).map (fun d => 48 + d)

/-- The JS default sort comparator on integer ids: compare decimal string
renderings lexicographically by character code. -/
def intStrLe (a b : Int) : Bool := lexLeN (numKey a) (numKey b)

/-- Model of `array.sort()` (no comparator) on an integer array. -/
def jsSortNumbers (l : List Int) : List Int := sortLe intStrLe l

/-! ### Rendering of timestamps (model of `Date.prototype.toISOString`)

`toISOString` renders a `Date` as `YYYY-MM-DDTHH:MM:SS.mmmZ` (UTC, proleptic
Gregorian calendar, expanded `±YYYYYY` years outside `[0, 9999]`).  The
volley builder only ever observes (a) the string as a whole as hash input
and (b) the five characters following the `T`, i.e. the zero-padded UTC
hour and minute (`isoHHMM`). -/

/-- Zero-pad the decimal rendering of `n` on the left to width `w`. -/
def padNum (w n : Nat) : String :=
  let s := toString n
  String.mk (List.replicate (w - s.length) (Char.ofNat 48)) ++ s

/-- Proleptic Gregorian civil date (year, month, day) from days since
1970-01-01 (Howard Hinnant's `civil_from_days` algorithm, the behaviour of
the ECMAScript `Date`). -/
def civilFromDays (z0 : Int) : Int × Nat × Nat :=
  let z := z0 + 719468
  let era : Int := Int.fdiv z 146097
  let doe : Nat := (z - era * 146097).toNat
  let yoe : Nat := (doe - doe / 1460 + doe / 36524 - doe / 146096) / 365
  let y : Int := (yoe : Int) + era * 400
  let doy : Nat := doe - (365 * yoe + yoe / 4 - yoe / 100)
  let mp : Nat := (5 * doy + 2) / 153
  let d : Nat := doy - (153 * mp + 2) / 5 + 1
  let m : Nat := if mp < 10 then mp + 3 else mp - 9
  (if m ≤ 2 then y + 1 else y, m, d)

/-- Year field of an ISO-8601 date string (expanded form outside 0..9999). -/
def yearStr (y : Int) : String :=
  if 0 ≤ y ∧ y ≤ 9999 then padNum 4 y.toNat
  else if y < 0 then "-" ++ padNum 6 (-y).toNat
  else "+" ++ padNum 6 y.toNat

/-- Model of `Date.prototype.toISOString` on epoch milliseconds. -/
def toISOString (t : Time) : String :=
  let days := Int.fdiv t 86400000
  let ms := (Int.fmod t 86400000).toNat
  let c := civilFromDays days
  yearStr c.1 ++ "-" ++ padNum 2 c.2.1 ++ "-" ++ padNum 2 c.2.2 ++ "T" ++
    padNum 2 (ms / 3600000) ++ ":" ++ padNum 2 (ms % 3600000 / 60000) ++ ":" ++
    padNum 2 (ms % 60000 / 1000) ++ "." ++ padNum 3 (ms % 1000) ++ "Z"

/-- Model of `time.toISOString().split('T')[1].substring(0, 5)` from the
volley builder (src/unnamed/part_009): the date part of `toISOString`
contains no `'T'`, so the expression selects the first five characters after
the `'T'`, which by construction of `toISOString` are the zero-padded UTC
hour, a colon, and the zero-padded UTC minute. -/
def isoHHMM (t : Time) : String :=
  let ms := (Int.fmod t 86400000).toNat
  padNum 2 (ms / 3600000) ++ ":" ++ padNum 2 (ms % 3600000 / 60000)

/-! ### Volley identity hash

Modelled from the spec: the repository computes the volley id with the
external `js-sha256` package (not part of the repository's sources),
truncating the 64-hex-character digest to 16 characters.  Per the spec's
design notes (§9: any stable fixed-width digest with low collision
probability is acceptable, the only requirement being determinism), the
digest is modelled as a deterministic 256-bit polynomial rolling hash of the
input string rendered as 64 hex characters. -/

/-- Modelled from the spec: deterministic 256-bit digest of a string
(stands in for the external js-sha256 dependency). -/
def digest256 (s : String) : Nat :=
  s.data.foldl (fun h c => (h * 131 + c.toNat) % (2 ^ 256)) 5381

/-- Hex digit character (lower case, as produced by js-sha256). -/
def hexChar (n : Nat) : Char :=
  if n < 10 then Char.ofNat (48 + n) else Char.ofNat (87 + n)

/-- Fixed-width big-endian hex rendering (exactly `w` characters). -/
def toHexFixedAux : Nat → Nat → List Char
  | 0, _ => []
  | w + 1, n => toHexFixedAux w (n / 16) ++ [hexChar (n % 16)]

/-- Fixed-width hex string of `n` (exactly `w` characters). -/
def toHexFixed (w n : Nat) : String := String.mk (toHexFixedAux w n)

/-- Modelled from the spec: 64-hex-character digest string (js-sha256's
`sha256(data)`). -/
def sha256hex (s : String) : String := toHexFixed 64 (digest256 s)

/-- Model of `s.substring(0, n)`: the first `n` UTF-16 code units.  All
strings it is applied to here are ASCII, where code units and characters
coincide. -/
def jsSubstring (s : String) (n : Nat) : String := String.mk (s.data.take n)

/-! ### Volley builder (src/unnamed/part_009) -/

/-- `createVolleyId` from src/unnamed/part_009:
``sha256(`${startTime.toISOString()}-${endTime.toISOString()}-${participantIds.sort().join(',')}`).substring(0, 16)``
(`participantIds.sort()` is the comparator-less JS sort, i.e. by decimal
string rendering). -/
def createVolleyId (startTime endTime : Time) (participantIds : List Int) : String :=
  let data := toISOString startTime ++ "-" ++ toISOString endTime ++ "-" ++
    String.intercalate "," ((jsSortNumbers participantIds).map toString)
  jsSubstring (sha256hex data) 16

/-- The depth loop of `buildVolley`: count speaker changes across the turn
sequence (`lastSender` starts as `null`). -/
def countSpeakerChanges (lastSender : Option Int) : List Turn → Nat
  | [] => 0
  | t :: rest =>
    (match lastSender with
     | some l => if t.sender_id ≠ l then 1 else 0
     | none => 0) + countSpeakerChanges (some t.sender_id) rest

/-- One line of the pivot text, as rendered by `buildVolley`:
`"HH:MM - <label>: <content>"` with label `"Me"` exactly when the message's
sender equals `firstParticipant` (the first entry of the volley's
participant array, i.e. `participants[0]`). -/
def pivotLine (firstParticipant : Int) (msg : Message) : String :=
  isoHHMM msg.sent_at ++ " - " ++
    (if msg.from_id = firstParticipant then "Me" else "Them") ++ ": " ++ msg.content

/-- `buildVolley` from src/unnamed/part_009.  The `throw new Error(...)` on
an empty turn array is modelled by `Except.error`; `participants[0]` is
`headD` (never out of range: `turns` is non-empty, so `participants` is
too); `turns[turns.length - 1]` is `getLastD`. -/
def buildVolley (turns : List Turn) : Except String Volley :=
  match turns with
  | [] => Except.error "Cannot build volley from empty turns array"
  | t0 :: _ =>
    let messages := turns.flatMap (fun t => t.messages)
    let participants := jsSortNumbers (jsDedup (turns.map (fun t => t.sender_id)))
    let startTime := t0.start_time
    let endTime := (turns.getLastD default).end_time
    let depth := countSpeakerChanges none turns
    let pivotText :=
      String.intercalate "\n" (messages.map (fun msg => pivotLine (participants.headD 0) msg))
    let volleyId := createVolleyId startTime endTime participants
    Except.ok
      { id := volleyId, turns := turns, participants := participants,
        start_time := startTime, end_time := endTime, depth := depth,
        message_count := messages.length, pivot_text := pivotText }

/-- `buildSession` from src/unnamed/part_009 (only called on non-empty
volley groups). -/
def buildSession (volleys : List Volley) : Session :=
  let startTime := (volleys.headD default).start_time
  let endTime := (volleys.getLastD default).end_time
  let participants := jsSortNumbers (jsDedup (volleys.flatMap (fun v => v.participants)))
  let durationMinutes := getGapSeconds startTime endTime / 60
  { volleys := volleys, participants := participants, start_time := startTime,
    end_time := endTime, duration_minutes := durationMinutes }

/-- The accumulation loop of `groupVolleysIntoSessions`, carrying the
previous volley (`volleys[i - 1]`, always the last of the current group). -/
def sessionsGo (sessionTimeout : ℚ) (prev : Volley) (currentSession : List Volley) :
    List Volley → List Session
  | [] => [buildSession currentSession]
  | currVolley :: rest =>
    let gap := getGapSeconds prev.end_time currVolley.start_time
    if gap > sessionTimeout then
      buildSession currentSession :: sessionsGo sessionTimeout currVolley [currVolley] rest
    else
      sessionsGo sessionTimeout currVolley (currentSession ++ [currVolley]) rest

/-- `groupVolleysIntoSessions` from src/unnamed/part_009. -/
def groupVolleysIntoSessions (volleys : List Volley) (sessionTimeout : ℚ) : List Session :=
  match volleys with
  | [] => []
  | v :: rest => sessionsGo sessionTimeout v [v] rest

/-! ### Kneedle estimator (src/segmentation/kneedle.ts) -/

/-- Numeric comparator `(a, b) => a - b` as a boolean order. -/
def qLe (a b : ℚ) : Bool := decide (a ≤ b)

/-- Model of `[...gaps].sort((a, b) => a - b)`: stable ascending numeric sort. -/
def sortQ (l : List ℚ) : List ℚ := sortLe qLe l

/-- `findKneePoint` from src/segmentation/kneedle.ts.  The loop over
`i = 1 .. n - 2` tracking the maximal `|differences[i]|` is modelled by a
fold over `[1, ..., n - 2]`; the `-Infinity` initial value of `maxDiff` is
modelled by `-1`, equivalent because `|d| ≥ 0 > -1` makes the very first
comparison succeed either way.  Array reads `values[i]` are `getD i 0`
(always in range here). -/
def findKneePoint (values : List ℚ) : Nat :=
  if values.length < 3 then values.length / 2
  else
    let n := values.length
    let yMin := values.getD 0 0
    let yMax := values.getD (n - 1) 0
    let yRange := yMax - yMin
    if yRange = 0 then n / 2
    else
      let diffAbs : Nat → ℚ := fun i =>
        |(i : ℚ) / ((n : ℚ) - 1) - (values.getD i 0 - yMin) / yRange|
      let step : ℚ × Nat → Nat → ℚ × Nat := fun acc i =>
        if diffAbs i > acc.1 then (diffAbs i, i) else acc
      (((List.range (n - 2)).map (fun j => j + 1)).foldl step (-1, 0)).2

/-- `getPercentileTimeout` from src/segmentation/kneedle.ts:
`index = Math.ceil((percentile / 100) * sorted.length) - 1`, clamped to
`[0, sorted.length - 1]`; returns 300 on an empty list. -/
def getPercentileTimeout (gaps : List ℚ) (percentile : ℚ) : ℚ :=
  if gaps.length = 0 then 300
  else
    let sorted := sortQ gaps
    let index : Int := Int.ceil (percentile / 100 * (sorted.length : ℚ)) - 1
    sorted.getD (max 0 (min index ((sorted.length : Int) - 1))).toNat 0

/-- `getAdaptiveTimeout` from src/segmentation/kneedle.ts.  The
`try/catch` is dropped: no modelled operation can throw (JS array reads
out of range yield `undefined` rather than throwing, and none occur here). -/
def getAdaptiveTimeout (gaps : List ℚ) (fallbackPercentile : ℚ) : ℚ :=
  if gaps.length < 5 then getPercentileTimeout gaps fallbackPercentile
  else
    let sorted := sortQ gaps
    let kneeIndex := findKneePoint sorted
    let kneeValue := sorted.getD kneeIndex 0
    if 0 < kneeIndex ∧ kneeIndex < sorted.length - 1 then kneeValue
    else getPercentileTimeout sorted fallbackPercentile

/-- The timeout triple of `calculateTimeouts`. -/
structure Timeouts where
  turn_timeout : ℚ
  threadlet_timeout : ℚ
  session_timeout : ℚ
  deriving Repr, DecidableEq

/-- `calculateTimeouts` from src/segmentation/kneedle.ts. -/
def calculateTimeouts (gaps : List ℚ) : Timeouts :=
  if gaps.length = 0 then
    { turn_timeout := 180, threadlet_timeout := 1800, session_timeout := 14400 }
  else
    let sorted := sortQ gaps
    { turn_timeout := getPercentileTimeout sorted 70,
      threadlet_timeout := getAdaptiveTimeout sorted 85,
      session_timeout := getPercentileTimeout sorted 95 }

/-! ### Segmentation phases (src/segmentation/index.ts) -/

/-- The `if (!timeout) { ... derive ... }` guard shared by all three phases:
an omitted timeout and every falsy value (`0`; `NaN` does not arise over
`ℚ`) are replaced by the derived adaptive value. -/
def effTimeout (auto : ℚ) : Option ℚ → ℚ
  | none => auto
  | some t => if t = 0 then auto else t

/-- Consecutive gaps of a message list (`getGapSeconds` of adjacent
`sent_at` values), as accumulated by `messagesToTurns`. -/
def messageGaps (sorted : List Message) : List ℚ :=
  (sorted.zip sorted.tail).map (fun p => getGapSeconds p.1.sent_at p.2.sent_at)

/-- `createTurn` from src/segmentation/index.ts (only called on non-empty
runs). -/
def createTurn (messages : List Message) (senderId : Int) : Turn :=
  { messages := messages, sender_id := senderId,
    start_time := (messages.headD default).sent_at,
    end_time := (messages.getLastD default).sent_at }

/-- The scan loop of `messagesToTurns`: `prev` is `sorted[i - 1]` (always
the last message of `currentTurn`), `currentTurn`/`currentSender` the run
being accumulated.  A new turn starts when the sender changes or the gap
strictly exceeds the timeout; the final run is always flushed (the
`currentTurn.length > 0` guard of the source is vacuous: the run is never
empty). -/
def turnsGo (turnTimeout : ℚ) (prev : Message) (currentTurn : List Message)
    (currentSender : Int) : List Message → List Turn
  | [] => [createTurn currentTurn currentSender]
  | currMsg :: rest =>
    let gap := getGapSeconds prev.sent_at currMsg.sent_at
    let senderChanged := currMsg.from_id ≠ currentSender
    let timeoutExceeded := gap > turnTimeout
    if senderChanged ∨ timeoutExceeded then
      createTurn currentTurn currentSender ::
        turnsGo turnTimeout currMsg [currMsg] currMsg.from_id rest
    else
      turnsGo turnTimeout currMsg (currentTurn ++ [currMsg]) currentSender rest

/-- Sort of the input messages by timestamp:
`[...messages].sort((a, b) => parseDate(a.sent_at).getTime() - parseDate(b.sent_at).getTime())`. -/
def sortMessages (messages : List Message) : List Message :=
  sortLe (fun a b => decide (a.sent_at ≤ b.sent_at)) messages

/-- The scan of `messagesToTurns` over the sorted message list: the run is
seeded with `sorted[0]` (`currentTurn = [sorted[0]]`,
`currentSender = sorted[0].from_id`) and the loop starts at index 1. -/
def turnsOfSorted (timeout : ℚ) : List Message → List Turn
  | [] => []
  | m :: rest => turnsGo timeout m [m] m.from_id rest

/-- `messagesToTurns` from src/segmentation/index.ts.  The optional
`turnTimeout` parameter is `Option ℚ`; the falsy guard is `effTimeout`. -/
def messagesToTurns (messages : List Message) (turnTimeout : Option ℚ) : List Turn :=
  match messages with
  | [] => []
  | _ :: _ =>
    let sorted := sortMessages messages
    turnsOfSorted (effTimeout (calculateTimeouts (messageGaps sorted)).turn_timeout turnTimeout) sorted

/-- Consecutive end-to-start gaps of a turn list, as accumulated by
`turnsToVolleys`. -/
def turnGaps (turns : List Turn) : List ℚ :=
  (turns.zip turns.tail).map (fun p => getGapSeconds p.1.end_time p.2.start_time)

/-- The adaptive volley timeout of `turnsToVolleys` (the
`threadlet_timeout` component of `calculateTimeouts` over the turn gaps). -/
def autoThreadletTimeout (turns : List Turn) : ℚ :=
  (calculateTimeouts (turnGaps turns)).threadlet_timeout

/-- The volley timeout actually used by a `turnsToVolleys` run. -/
def effThreadletTimeout (turns : List Turn) (threadletTimeout : Option ℚ) : ℚ :=
  effTimeout (autoThreadletTimeout turns) threadletTimeout

/-- The accumulation loop of `turnsToVolleys`: `prev` is `turns[i - 1]`
(always the last turn of `currentVolley`).  A `buildVolley` error would
propagate (JS `throw`), hence the explicit error plumbing; it never fires
because the accumulated run is never empty. -/
def volleysGo (threadletTimeout : ℚ) (prev : Turn) (currentVolley : List Turn) :
    List Turn → Except String (List Volley)
  | [] =>
    match buildVolley currentVolley with
    | Except.error e => Except.error e
    | Except.ok v => Except.ok [v]
  | currTurn :: rest =>
    let gap := getGapSeconds prev.end_time currTurn.start_time
    if gap > threadletTimeout then
      match buildVolley currentVolley with
      | Except.error e => Except.error e
      | Except.ok v =>
        match volleysGo threadletTimeout currTurn [currTurn] rest with
        | Except.error e => Except.error e
        | Except.ok vs => Except.ok (v :: vs)
    else
      volleysGo threadletTimeout currTurn (currentVolley ++ [currTurn]) rest

/-- `turnsToVolleys` from src/segmentation/index.ts. -/
def turnsToVolleys (turns : List Turn) (threadletTimeout : Option ℚ) :
    Except String (List Volley) :=
  match turns with
  | [] => Except.ok []
  | t :: rest => volleysGo (effThreadletTimeout (t :: rest) threadletTimeout) t [t] rest

/-- Consecutive end-to-start gaps of a volley list, as accumulated by
`volleysToSessions`. -/
def volleyGaps (volleys : List Volley) : List ℚ :=
  (volleys.zip volleys.tail).map (fun p => getGapSeconds p.1.end_time p.2.start_time)

/-- `volleysToSessions` from src/segmentation/index.ts. -/
def volleysToSessions (volleys : List Volley) (sessionTimeout : Option ℚ) : List Session :=
  match volleys with
  | [] => []
  | _ :: _ =>
    let timeout := effTimeout (calculateTimeouts (volleyGaps volleys)).session_timeout sessionTimeout
    groupVolleysIntoSessions volleys timeout

/-- Two adjacent messages belong to the same turn: same sender and gap at
most the turn timeout. -/
def inTurnStep (T : ℚ) (a b : Message) : Prop :=
  b.from_id = a.from_id ∧ getGapSeconds a.sent_at b.sent_at ≤ T

/-- Two adjacent messages are split into different turns: sender change or
gap strictly above the turn timeout. -/
def turnSplitStep (T : ℚ) (a b : Message) : Prop :=
  b.from_id ≠ a.from_id ∨ getGapSeconds a.sent_at b.sent_at > T

/-- The boundary between two consecutive turns is justified: the last
message of the first and the first message of the second satisfy
`turnSplitStep`. -/
def turnBoundaryOk (T : ℚ) (t tn : Turn) : Prop :=
  ∀ a b, t.messages.getLast? = some a → tn.messages.head? = some b → turnSplitStep T a b

/-- Two adjacent turns belong to the same volley: end-to-start gap at most
the volley timeout. -/
def inVolleyStep (T : ℚ) (t tn : Turn) : Prop :=
  getGapSeconds t.end_time tn.start_time ≤ T

/-- The boundary between two consecutive volleys is justified: the gap from
the last turn of the first to the first turn of the second strictly exceeds
the volley timeout. -/
def volleyBoundaryOk (T : ℚ) (v vn : Volley) : Prop :=
  ∀ a b, v.turns.getLast? = some a → vn.turns.head? = some b →
    getGapSeconds a.end_time b.start_time > T

/-! ### Concrete example inputs -/

/-- Helper to build a concrete message. -/
def mkMsg (fromId : Int) (t : Time) (c : String) : Message :=
  { ID := 0, chat_id := 1, from_id := fromId, content := c, sent_at := t, message_id := "m" }

/-- A turn by sender 10 at t = 0 s. -/
def exTurnA : Turn :=
  { messages := [mkMsg 10 0 "alpha"], sender_id := 10, start_time := 0, end_time := 0 }

/-- A turn by sender 2 at t = 300 s. -/
def exTurnB : Turn :=
  { messages := [mkMsg 2 300000 "beta"], sender_id := 2, start_time := 300000,
    end_time := 300000 }

/-- A second turn by sender 10 at t = 650 s. -/
def exTurnA2 : Turn :=
  { messages := [mkMsg 10 650000 "gamma"], sender_id := 10, start_time := 650000,
    end_time := 650000 }

/-- The five messages of the spec's end-to-end scenario: t = 0 s (A = 1),
30 s (A), 65 s (B = 2), 95 s (B), 400 s (A); timestamps in milliseconds. -/
def exC4Msgs : List Message :=
  [mkMsg 1 0 "m1", mkMsg 1 30000 "m2", mkMsg 2 65000 "m3", mkMsg 2 95000 "m4",
   mkMsg 1 400000 "m5"]

/-- A turn used by the C3 witness (content "xx"). -/
def exTurnX : Turn :=
  { messages := [mkMsg 3 0 "xx"], sender_id := 3, start_time := 0, end_time := 60000 }

/-- A turn with the same boundaries and sender but different content. -/
def exTurnY : Turn :=
  { messages := [mkMsg 3 0 "yy"], sender_id := 3, start_time := 0, end_time := 60000 }

theorem insertLe_perm (le : α → α → Bool) (a : α) (l : List α) :
    (insertLe le a l).Perm (a :: l) := by
  induction l with
  | nil => exact List.Perm.refl _
  | cons b bs ih =>
    by_cases h : le a b = true
    · simp [insertLe, h]
    · simp only [insertLe, h, if_neg]
      exact List.Perm.trans (ih.cons b) (List.Perm.swap a b bs)

theorem sortLe_perm (le : α → α → Bool) (l : List α) :
    (sortLe le l).Perm l := by
  induction l with
  | nil => exact List.Perm.refl _
  | cons a as ih => exact List.Perm.trans (insertLe_perm le a _) (ih.cons a)

theorem mem_sortLe (le : α → α → Bool) (l : List α) (x : α) :
    x ∈ sortLe le l ↔ x ∈ l :=
  (sortLe_perm le l).mem_iff

theorem length_sortLe (le : α → α → Bool) (l : List α) :
    (sortLe le l).length = l.length :=
  (sortLe_perm le l).length_eq

theorem insertLe_pairwise (le : α → α → Bool)
    (htot : ∀ a b, le a b = true ∨ le b a = true)
    (htrans : ∀ a b c, le a b = true → le b c = true → le a c = true)
    (a : α) (l : List α) (hl : l.Pairwise (fun x y => le x y = true)) :
    (insertLe le a l).Pairwise (fun x y => le x y = true) := by
  induction l with
  | nil => simp [insertLe]
  | cons b bs ih =>
    rcases hl with _ | ⟨hb, hbs⟩
    by_cases h : le a b = true
    · simp only [insertLe, h, if_pos]
      refine List.Pairwise.cons ?_ (List.Pairwise.cons hb hbs)
      intro x hx
      rcases List.mem_cons.mp hx with hxb | hxbs
      · subst hxb; exact h
      · exact htrans a b x h (hb x hxbs)
    · rcases htot a b with hab | hba
      · exact absurd hab h
      · simp only [insertLe, h, if_neg]
        refine List.Pairwise.cons ?_ (ih hbs)
        intro x hx
        have hx' := (insertLe_perm le a bs).mem_iff.mp hx
        rcases List.mem_cons.mp hx' with hxa | hxbs
        · subst hxa; exact hba
        · exact hb x hxbs

theorem sortLe_pairwise (le : α → α → Bool)
    (htot : ∀ a b, le a b = true ∨ le b a = true)
    (htrans : ∀ a b c, le a b = true → le b c = true → le a c = true)
    (l : List α) :
    (sortLe le l).Pairwise (fun x y => le x y = true) := by
  induction l with
  | nil => exact List.Pairwise.nil
  | cons a as ih => exact insertLe_pairwise le htot htrans a _ ih

theorem sortLe_nodup (le : α → α → Bool) (l : List α) (h : l.Nodup) :
    (sortLe le l).Nodup :=
  ((sortLe_perm le l).nodup_iff).mpr h

/-- The first element of a sorted list is minimal among the list's members. -/
theorem sortLe_head_min (le : α → α → Bool)
    (htot : ∀ a b, le a b = true ∨ le b a = true)
    (htrans : ∀ a b c, le a b = true → le b c = true → le a c = true)
    (l : List α) (p : α) (rest : List α) (hshape : sortLe le l = p :: rest)
    (x : α) (hx : x ∈ l) : le p x = true := by
  have hx' : x ∈ sortLe le l := (mem_sortLe le l x).mpr hx
  rw [hshape] at hx'
  rcases List.mem_cons.mp hx' with hxp | hxrest
  · subst hxp
    rcases htot x x with hxx | hxx <;> exact hxx
  · have hp := sortLe_pairwise le htot htrans l
    rw [hshape] at hp
    rcases hp with _ | ⟨hhead, _⟩
    exact hhead x hxrest

theorem mem_dedupFirstAux (l : List Int) :
    ∀ (seen : List Int) (y : Int), y ∈ dedupFirstAux seen l ↔ y ∈ l ∧ y ∉ seen := by
  induction l with
  | nil => intro seen y; simp [dedupFirstAux]
  | cons x xs ih =>
    intro seen y
    by_cases hx : x ∈ seen
    · rw [dedupFirstAux, if_pos hx, ih]
      constructor
      · rintro ⟨hy, hys⟩; exact ⟨List.mem_cons_of_mem x hy, hys⟩
      · rintro ⟨hy, hys⟩
        rcases List.mem_cons.mp hy with hyx | hy'
        · subst hyx; exact absurd hx hys
        · exact ⟨hy', hys⟩
    · rw [dedupFirstAux, if_neg hx]
      constructor
      · intro hmem
        rcases List.mem_cons.mp hmem with hyx | hymem
        · subst hyx; exact ⟨List.mem_cons_self y xs, hx⟩
        · obtain ⟨hy, hys⟩ := (ih (x :: seen) y).mp hymem
          exact ⟨List.mem_cons_of_mem x hy,
            fun hsy => hys (List.mem_cons_of_mem x hsy)⟩
      · rintro ⟨hy, hys⟩
        rcases List.mem_cons.mp hy with hyx | hy'
        · subst hyx; exact List.mem_cons_self y _
        · by_cases hxy : y = x
          · subst hxy; exact List.mem_cons_self y _
          · refine List.mem_cons_of_mem x ((ih (x :: seen) y).mpr ⟨hy', ?_⟩)
            intro hmem
            rcases List.mem_cons.mp hmem with h1 | h2
            · exact hxy h1
            · exact hys h2

theorem mem_jsDedup (l : List Int) (y : Int) : y ∈ jsDedup l ↔ y ∈ l := by
  simp [jsDedup, mem_dedupFirstAux]

theorem nodup_dedupFirstAux (l : List Int) :
    ∀ seen : List Int, (dedupFirstAux seen l).Nodup := by
  induction l with
  | nil => intro seen; simp [dedupFirstAux]
  | cons x xs ih =>
    intro seen
    by_cases hx : x ∈ seen
    · simpa [dedupFirstAux, hx] using ih seen
    · simp only [dedupFirstAux, hx, if_neg]
      refine List.Nodup.cons ?_ (ih (x :: seen))
      intro hmem
      exact ((mem_dedupFirstAux xs (x :: seen) x).mp hmem).2 (List.mem_cons_self x seen)

theorem nodup_jsDedup (l : List Int) : (jsDedup l).Nodup := nodup_dedupFirstAux l []

theorem jsDedup_ne_nil (l : List Int) (h : l ≠ []) : jsDedup l ≠ [] := by
  cases l with
  | nil => exact absurd rfl h
  | cons x xs => simp [jsDedup, dedupFirstAux]

theorem lexLeN_total : ∀ a b : List Nat, lexLeN a b = true ∨ lexLeN b a = true := by
  intro a
  induction a with
  | nil => intro b; exact Or.inl rfl
  | cons x xs ih =>
    intro b
    cases b with
    | nil => exact Or.inr rfl
    | cons y ys =>
      rcases Nat.lt_trichotomy x y with h | h | h
      · exact Or.inl (by simp [lexLeN, h])
      · subst h
        rcases ih ys with h' | h'
        · exact Or.inl (by simp [lexLeN, h'])
        · exact Or.inr (by simp [lexLeN, h'])
      · exact Or.inr (by simp [lexLeN, h])

theorem lexLeN_trans : ∀ a b c : List Nat,
    lexLeN a b = true → lexLeN b c = true → lexLeN a c = true := by
  intro a
  induction a with
  | nil => intro b c _ _; rfl
  | cons x xs ih =>
    intro b c hab hbc
    cases b with
    | nil => simp [lexLeN] at hab
    | cons y ys =>
      cases c with
      | nil => simp [lexLeN] at hbc
      | cons z zs =>
        rcases Nat.lt_trichotomy x y with hxy | hxy | hxy
        · rcases Nat.lt_trichotomy y z with hyz | hyz | hyz
          · exact (by simp [lexLeN, Nat.lt_trans hxy hyz])
          · subst hyz; exact (by simp [lexLeN, hxy])
          · -- y > z contradicts lexLeN (y::ys) (z::zs)
            simp [lexLeN, Nat.lt_asymm hyz, hyz] at hbc
        · subst hxy
          rcases Nat.lt_trichotomy x z with hyz | hyz | hyz
          · exact (by simp [lexLeN, hyz])
          · subst hyz
            simp only [lexLeN, lt_self_iff_false, if_false] at hab hbc ⊢
            exact ih ys zs hab hbc
          · simp [lexLeN, Nat.lt_asymm hyz, hyz] at hbc
        · simp [lexLeN, Nat.lt_asymm hxy, hxy] at hab

theorem lexLeN_antisymm : ∀ a b : List Nat,
    lexLeN a b = true → lexLeN b a = true → a = b := by
  intro a
  induction a with
  | nil =>
    intro b _ hba
    cases b with
    | nil => rfl
    | cons y ys => simp [lexLeN] at hba
  | cons x xs ih =>
    intro b hab hba
    cases b with
    | nil => simp [lexLeN] at hab
    | cons y ys =>
      rcases Nat.lt_trichotomy x y with hxy | hxy | hxy
      · simp [lexLeN, Nat.lt_asymm hxy, hxy] at hba
      · subst hxy
        simp only [lexLeN, lt_self_iff_false, if_false] at hab hba
        rw [ih ys hab hba]
      · simp [lexLeN, Nat.lt_asymm hxy, hxy] at hab

theorem ofDigitsRev_digitsRevFuel :
    ∀ (fuel n : Nat), n ≤ fuel → ofDigitsRev (digitsRevFuel fuel n) = n := by
  intro fuel
  induction fuel with
  | zero =>
    intro n hn
    interval_cases n
    rfl
  | succ fuel ih =>
    intro n hn
    by_cases h0 : n = 0
    · subst h0; rfl
    · have hdivlt : n / 10 < n := Nat.div_lt_self (Nat.pos_of_ne_zero h0) (by norm_num)
      have hdiv : n / 10 ≤ fuel := by omega
      simp only [digitsRevFuel, h0, if_neg, ofDigitsRev, ih (n / 10) hdiv]
      omega

theorem digitsRevFuel_ne_nil (fuel n : Nat) (h0 : n ≠ 0) (hn : n ≤ fuel) :
    digitsRevFuel fuel n ≠ [] := by
  cases fuel with
  | zero => omega
  | succ fuel => simp [digitsRevFuel, h0]

theorem decDigits_ne_nil (n : Nat) : decDigits n ≠ [] := by
  by_cases h0 : n = 0
  · subst h0; simp [decDigits]
  · simp only [decDigits, h0, if_neg]
    intro h
    exact digitsRevFuel_ne_nil n n h0 (le_refl n) (by simpa using congrArg List.reverse h)

theorem decDigits_inj (a b : Nat) (h : decDigits a = decDigits b) : a = b := by
  by_cases ha : a = 0 <;> by_cases hb : b = 0
  · omega
  · exfalso
    simp only [decDigits, ha, hb, if_pos, if_neg] at h
    have hrev : digitsRevFuel b b = [0] := by
      have := congrArg List.reverse h
      simpa using this.symm
    have := ofDigitsRev_digitsRevFuel b b (le_refl b)
    rw [hrev] at this
    simp [ofDigitsRev] at this
    exact hb this.symm
  · exfalso
    simp only [decDigits, ha, hb, if_pos, if_neg] at h
    have hrev : digitsRevFuel a a = [0] := by
      have := congrArg List.reverse h
      simpa using this
    have := ofDigitsRev_digitsRevFuel a a (le_refl a)
    rw [hrev] at this
    simp [ofDigitsRev] at this
    exact ha this.symm
  · simp only [decDigits, ha, hb, if_neg] at h
    have hrev : digitsRevFuel a a = digitsRevFuel b b := by
      have := congrArg List.reverse h
      simpa using this
    have h1 := ofDigitsRev_digitsRevFuel a a (le_refl a)
    have h2 := ofDigitsRev_digitsRevFuel b b (le_refl b)
    rw [hrev, h2] at h1
    exact h1.symm

theorem map_add48_inj {l1 l2 : List Nat}
    (h : l1.map (fun d => 48 + d) = l2.map (fun d => 48 + d)) : l1 = l2 := by
  have hinj : Function.Injective (fun d : Nat => 48 + d) := by
    intro x y hxy
    have hxy' : 48 + x = 48 + y := hxy
    omega
  exact List.map_injective_iff.mpr hinj h

theorem numKey_inj (a b : Int) (h : numKey a = numKey b) : a = b := by
  by_cases ha : a < 0 <;> by_cases hb : b < 0 <;> simp only [numKey] at h
  · rw [if_pos ha, if_pos hb] at h
    injection h with h1 h2
    have := decDigits_inj _ _ (map_add48_inj h2)
    omega
  · rw [if_pos ha, if_neg hb] at h
    rcases hd : decDigits b.toNat with _ | ⟨d, ds⟩
    · exact absurd hd (decDigits_ne_nil _)
    · rw [hd] at h
      simp only [List.map_cons] at h
      injection h with h1 _
      omega
  · rw [if_neg ha, if_pos hb] at h
    rcases hd : decDigits a.toNat with _ | ⟨d, ds⟩
    · exact absurd hd (decDigits_ne_nil _)
    · rw [hd] at h
      simp only [List.map_cons] at h
      injection h with h1 _
      omega
  · rw [if_neg ha, if_neg hb] at h
    have := decDigits_inj _ _ (map_add48_inj h)
    omega

theorem intStrLe_total (a b : Int) : intStrLe a b = true ∨ intStrLe b a = true :=
  lexLeN_total (numKey a) (numKey b)

theorem intStrLe_trans (a b c : Int) :
    intStrLe a b = true → intStrLe b c = true → intStrLe a c = true :=
  lexLeN_trans (numKey a) (numKey b) (numKey c)

theorem intStrLe_antisymm (a b : Int) :
    intStrLe a b = true → intStrLe b a = true → a = b := by
  intro hab hba
  exact numKey_inj a b (lexLeN_antisymm _ _ hab hba)

/-- Two duplicate-free lists sorted by the same antisymmetric total order and
with the same members are equal. -/
theorem sorted_nodup_ext (le : α → α → Bool)
    (hanti : ∀ a b, le a b = true → le b a = true → a = b) :
    ∀ l1 l2 : List α, l1.Pairwise (fun x y => le x y = true) →
      l2.Pairwise (fun x y => le x y = true) → l1.Nodup → l2.Nodup →
      (∀ x, x ∈ l1 ↔ x ∈ l2) → l1 = l2 := by
  intro l1
  induction l1 with
  | nil =>
    intro l2 _ _ _ _ hmem
    cases l2 with
    | nil => rfl
    | cons b bs => exact absurd ((hmem b).mpr (List.mem_cons_self b bs)) (by simp)
  | cons a as ih =>
    intro l2 h1 h2 hn1 hn2 hmem
    cases l2 with
    | nil => exact absurd ((hmem a).mp (List.mem_cons_self a as)) (by simp)
    | cons b bs =>
      have hab : a ∈ b :: bs := (hmem a).mp (List.mem_cons_self a as)
      have hba : b ∈ a :: as := (hmem b).mpr (List.mem_cons_self b bs)
      have heq : a = b := by
        rcases List.mem_cons.mp hab with h | habs
        · exact h
        · rcases List.mem_cons.mp hba with h | hbas
          · exact h.symm
          · rcases h1 with _ | ⟨h1a, _⟩
            rcases h2 with _ | ⟨h2b, _⟩
            exact hanti a b (h1a b hbas) (h2b a habs)
      subst heq
      rcases h1 with _ | ⟨_, h1as⟩
      rcases h2 with _ | ⟨_, h2bs⟩
      rcases hn1 with _ | ⟨hna, hnas⟩
      rcases hn2 with _ | ⟨hnb, hnbs⟩
      have : as = bs := by
        refine ih bs h1as h2bs hnas hnbs ?_
        intro x
        constructor
        · intro hx
          rcases List.mem_cons.mp ((hmem x).mp (List.mem_cons_of_mem a hx)) with hxa | hxbs
          · exact (hna x hx hxa.symm).elim
          · exact hxbs
        · intro hx
          rcases List.mem_cons.mp ((hmem x).mpr (List.mem_cons_of_mem a hx)) with hxa | hxas
          · exact (hnb x hx hxa.symm).elim
          · exact hxas
      rw [this]

/-! ### Helper lemmas -/

theorem toHexFixedAux_length : ∀ (w n : Nat), (toHexFixedAux w n).length = w := by
  intro w
  induction w with
  | zero => intro n; rfl
  | succ w ih =>
    intro n
    simp [toHexFixedAux, ih]

theorem string_mk_length (l : List Char) : (String.mk l).length = l.length := rfl

theorem sha256hex_length (s : String) : (sha256hex s).length = 64 := by
  simp only [sha256hex, toHexFixed, string_mk_length]
  exact toHexFixedAux_length 64 _

theorem createVolleyId_length (startTime endTime : Time) (participantIds : List Int) :
    (createVolleyId startTime endTime participantIds).length = 16 := by
  simp only [createVolleyId, jsSubstring, string_mk_length, List.length_take]
  have h := sha256hex_length (toISOString startTime ++ "-" ++ toISOString endTime ++ "-" ++
    String.intercalate "," ((jsSortNumbers participantIds).map toString))
  rw [show ∀ u : String, u.length = u.data.length from fun _ => rfl] at h
  omega

/-- The explicit record produced by `buildVolley` on a non-empty turn list. -/
theorem buildVolley_cons (t0 : Turn) (rest : List Turn) :
    buildVolley (t0 :: rest) =
      Except.ok
        { id := createVolleyId t0.start_time ((t0 :: rest).getLastD default).end_time
              (jsSortNumbers (jsDedup ((t0 :: rest).map (fun t => t.sender_id)))),
          turns := t0 :: rest,
          participants := jsSortNumbers (jsDedup ((t0 :: rest).map (fun t => t.sender_id))),
          start_time := t0.start_time,
          end_time := ((t0 :: rest).getLastD default).end_time,
          depth := countSpeakerChanges none (t0 :: rest),
          message_count := ((t0 :: rest).flatMap (fun t => t.messages)).length,
          pivot_text := String.intercalate "\n"
            (((t0 :: rest).flatMap (fun t => t.messages)).map
              (fun msg => pivotLine
                ((jsSortNumbers (jsDedup ((t0 :: rest).map (fun t => t.sender_id)))).headD 0) msg)) } :=
  rfl

/-- Field extraction from a successful `buildVolley`. -/
theorem buildVolley_ok_fields (ts : List Turn) (v : Volley)
    (h : buildVolley ts = Except.ok v) :
    ts ≠ [] ∧
    v.turns = ts ∧
    v.participants = jsSortNumbers (jsDedup (ts.map (fun t => t.sender_id))) ∧
    v.start_time = (ts.headD default).start_time ∧
    v.end_time = (ts.getLastD default).end_time ∧
    v.pivot_text = String.intercalate "\n"
      ((ts.flatMap (fun t => t.messages)).map
        (fun msg => pivotLine (v.participants.headD 0) msg)) ∧
    v.id = createVolleyId v.start_time v.end_time v.participants := by
  cases ts with
  | nil => simp [buildVolley] at h
  | cons t0 rest =>
    rw [buildVolley_cons] at h
    have hv := (Except.ok.injEq _ _).mp h
    subst hv
    exact ⟨by simp, rfl, rfl, rfl, rfl, rfl, rfl⟩

/-- The first participant of a volley (`participants[0]`) is a sender of the
volley's turns and is minimal among all turn senders in the JS string order. -/
theorem participants_head_min (ts : List Turn) (v : Volley)
    (h : buildVolley ts = Except.ok v) :
    ∃ p rest, v.participants = p :: rest ∧
      p ∈ ts.map (fun t => t.sender_id) ∧
      ∀ q ∈ ts.map (fun t => t.sender_id), intStrLe p q = true := by
  obtain ⟨hne, -, hp, -⟩ := buildVolley_ok_fields ts v h
  have hsne : ts.map (fun t => t.sender_id) ≠ [] := by
    intro hmap
    exact hne (List.map_eq_nil_iff.mp hmap)
  have hdne : jsDedup (ts.map (fun t => t.sender_id)) ≠ [] := jsDedup_ne_nil _ hsne
  have hlen : 0 < (jsSortNumbers (jsDedup (ts.map (fun t => t.sender_id)))).length := by
    rw [jsSortNumbers, length_sortLe]
    exact List.length_pos.mpr hdne
  obtain ⟨p, rest, hshape⟩ := List.exists_cons_of_ne_nil (List.ne_nil_of_length_pos hlen)
  refine ⟨p, rest, by rw [hp, hshape], ?_, ?_⟩
  · have : p ∈ jsSortNumbers (jsDedup (ts.map (fun t => t.sender_id))) := by
      rw [hshape]; exact List.mem_cons_self p rest
    rw [jsSortNumbers, mem_sortLe, mem_jsDedup] at this
    exact this
  · intro q hq
    exact sortLe_head_min intStrLe intStrLe_total intStrLe_trans _ p rest hshape q
      ((mem_jsDedup _ q).mpr hq)

/-- C8: `buildVolley` raises its fatal construction error exactly on the
empty turn list, and succeeds on every non-empty turn list. -/
theorem buildVolley_fails_iff_empty :
    (∀ ts : List Turn, (∃ e, buildVolley ts = Except.error e) ↔ ts = []) ∧
    (∀ ts : List Turn, ts ≠ [] → ∃ v, buildVolley ts = Except.ok v) := by
  constructor
  · intro ts
    constructor
    · rintro ⟨e, he⟩
      cases ts with
      | nil => rfl
      | cons t0 rest =>
        rw [buildVolley_cons] at he
        exact absurd he (by simp)
    · intro h
      subst h
      exact ⟨"Cannot build volley from empty turns array", rfl⟩
  · intro ts h
    cases ts with
    | nil => exact absurd rfl h
    | cons t0 rest => exact ⟨_, buildVolley_cons t0 rest⟩

/-- Witness for C8 at a concrete non-empty turn list. -/
theorem buildVolley_fails_iff_empty_witness :
    ∃ v, buildVolley [exTurnA] = Except.ok v :=
  buildVolley_fails_iff_empty.2 [exTurnA] (by simp)

/-- C2 (amended): the participants of a volley are the duplicate-free set of
the turns' sender identifiers, sorted ascending in the JS default sort order
(lexicographic on the decimal string renderings), not in numeric order. -/
theorem volley_participants_sorted (ts : List Turn) (v : Volley)
    (h : buildVolley ts = Except.ok v) :
    v.participants.Nodup ∧
    (∀ x : Int, x ∈ v.participants ↔ x ∈ ts.map (fun t => t.sender_id)) ∧
    v.participants.Pairwise (fun a b => intStrLe a b = true) := by
  obtain ⟨-, -, hp, -⟩ := buildVolley_ok_fields ts v h
  rw [hp, jsSortNumbers]
  refine ⟨sortLe_nodup _ _ (nodup_jsDedup _), ?_,
    sortLe_pairwise _ intStrLe_total intStrLe_trans _⟩
  intro x
  rw [mem_sortLe, mem_jsDedup]

/-- Witness for C2 at a concrete turn list. -/
theorem volley_participants_sorted_witness :
    ∃ v, buildVolley [exTurnA, exTurnB, exTurnA2] = Except.ok v ∧
      (v.participants.Nodup ∧
       (∀ x : Int, x ∈ v.participants ↔
          x ∈ [exTurnA, exTurnB, exTurnA2].map (fun t => t.sender_id)) ∧
       v.participants.Pairwise (fun a b => intStrLe a b = true)) :=
  ⟨(buildVolley [exTurnA, exTurnB, exTurnA2]).toOption.get!,
    by with_unfolding_all rfl,
    volley_participants_sorted [exTurnA, exTurnB, exTurnA2]
      ((buildVolley [exTurnA, exTurnB, exTurnA2]).toOption.get!)
      (by with_unfolding_all rfl)⟩

/-- Counterexample to C2 as stated: for turn senders `[10, 2, 10]` the
participants array is `[10, 2]` (JS default sort is lexicographic on the
decimal renderings, and `"10" < "2"`), not the numerically ascending
`[2, 10]`. -/
theorem volley_participants_not_numeric :
    (buildVolley [exTurnA, exTurnB, exTurnA2]).map (fun v => v.participants) =
      Except.ok [10, 2] ∧
    [exTurnA, exTurnB, exTurnA2].map (fun t => t.sender_id) = [10, 2, 10] ∧
    ([10, 2] : List Int) ≠ [2, 10] ∧
    ([2, 10] : List Int).Pairwise (fun a b => a < b) := by
  refine ⟨by with_unfolding_all rfl, by with_unfolding_all rfl, by decide, by decide⟩

/-- C1 (amended): every line of `pivot_text` renders as
`"HH:MM - <label>: <content>"` (UTC time of day of the message timestamp),
where the label is `"Me"` exactly when the message's sender equals
`participants[0]` — the minimum of the participant identifiers in the JS
default (string) sort order, which is not always the numerically smallest
participant. -/
theorem pivot_text_rendering (ts : List Turn) (v : Volley)
    (h : buildVolley ts = Except.ok v) :
    ∃ p rest, v.participants = p :: rest ∧
      p ∈ ts.map (fun t => t.sender_id) ∧
      (∀ q ∈ ts.map (fun t => t.sender_id), intStrLe p q = true) ∧
      v.pivot_text = String.intercalate "\n"
        ((ts.flatMap (fun t => t.messages)).map (fun msg =>
          isoHHMM msg.sent_at ++ " - " ++
            (if msg.from_id = p then "Me" else "Them") ++ ": " ++ msg.content)) := by
  obtain ⟨p, rest, hpart, hmem, hmin⟩ := participants_head_min ts v h
  obtain ⟨-, -, -, -, -, hpt, -⟩ := buildVolley_ok_fields ts v h
  refine ⟨p, rest, hpart, hmem, hmin, ?_⟩
  rw [hpt, hpart]
  rfl

/-- Witness for C1 at a concrete two-turn volley. -/
theorem pivot_text_rendering_witness :
    ∃ p rest,
      ((buildVolley [exTurnA, exTurnB]).toOption.get!).participants = p :: rest ∧
      p ∈ [exTurnA, exTurnB].map (fun t => t.sender_id) ∧
      (∀ q ∈ [exTurnA, exTurnB].map (fun t => t.sender_id), intStrLe p q = true) ∧
      ((buildVolley [exTurnA, exTurnB]).toOption.get!).pivot_text = String.intercalate "\n"
        (([exTurnA, exTurnB].flatMap (fun t => t.messages)).map (fun msg =>
          isoHHMM msg.sent_at ++ " - " ++
            (if msg.from_id = p then "Me" else "Them") ++ ": " ++ msg.content)) :=
  pivot_text_rendering [exTurnA, exTurnB] _ (by with_unfolding_all rfl)

/-- Counterexample to C1 as stated: senders 10 and 2; the numerically
smallest participant is 2, yet the message sent by 2 is labelled `"Them"`
and the one sent by 10 is labelled `"Me"` (the code picks `participants[0]`
of the string-sorted array `[10, 2]`).  The rendering demanded by the claim
(label `"Me"` for the numerically smallest sender, 2) differs from the
actual `pivot_text`. -/
theorem pivot_text_not_numeric_me :
    (buildVolley [exTurnA, exTurnB]).map (fun v => v.pivot_text) =
      Except.ok "00:00 - Me: alpha\n00:05 - Them: beta" ∧
    [exTurnA, exTurnB].map (fun t => t.sender_id) = [10, 2] ∧
    (∀ q ∈ [exTurnA, exTurnB].map (fun t => t.sender_id), (2 : Int) ≤ q) ∧
    String.intercalate "\n" (([exTurnA, exTurnB].flatMap (fun t => t.messages)).map
      (fun msg => isoHHMM msg.sent_at ++ " - " ++
        (if msg.from_id = (2 : Int) then "Me" else "Them") ++ ": " ++ msg.content)) =
      "00:00 - Them: alpha\n00:05 - Me: beta" ∧
    ("00:00 - Me: alpha\n00:05 - Them: beta" : String) ≠
      "00:00 - Them: alpha\n00:05 - Me: beta" := by
  refine ⟨by with_unfolding_all rfl, by with_unfolding_all rfl, by decide,
    by with_unfolding_all rfl, by decide⟩

/-- C3: the volley id is a function of start time, end time and the
participant set alone — two successfully built volleys agreeing on those
three receive the same 16-character id regardless of message content or turn
structure. -/
theorem volley_id_content_addressed (ts1 ts2 : List Turn) (v1 v2 : Volley)
    (h1 : buildVolley ts1 = Except.ok v1) (h2 : buildVolley ts2 = Except.ok v2)
    (hs : v1.start_time = v2.start_time) (he : v1.end_time = v2.end_time)
    (hp : ∀ x : Int, x ∈ v1.participants ↔ x ∈ v2.participants) :
    v1.id = v2.id ∧ v1.id.length = 16 := by
  obtain ⟨-, -, hp1, -, -, -, hid1⟩ := buildVolley_ok_fields ts1 v1 h1
  obtain ⟨-, -, hp2, -, -, -, hid2⟩ := buildVolley_ok_fields ts2 v2 h2
  have hnod1 : v1.participants.Nodup := by
    rw [hp1, jsSortNumbers]; exact sortLe_nodup _ _ (nodup_jsDedup _)
  have hnod2 : v2.participants.Nodup := by
    rw [hp2, jsSortNumbers]; exact sortLe_nodup _ _ (nodup_jsDedup _)
  have hsort1 : v1.participants.Pairwise (fun a b => intStrLe a b = true) := by
    rw [hp1, jsSortNumbers]; exact sortLe_pairwise _ intStrLe_total intStrLe_trans _
  have hsort2 : v2.participants.Pairwise (fun a b => intStrLe a b = true) := by
    rw [hp2, jsSortNumbers]; exact sortLe_pairwise _ intStrLe_total intStrLe_trans _
  have hpeq : v1.participants = v2.participants :=
    sorted_nodup_ext intStrLe intStrLe_antisymm _ _ hsort1 hsort2 hnod1 hnod2 hp
  constructor
  · rw [hid1, hid2, hs, he, hpeq]
  · rw [hid1]
    exact createVolleyId_length _ _ _

/-- Witness for C3: identical start/end/participants, different content. -/
theorem volley_id_content_addressed_witness :
    ((buildVolley [exTurnX]).toOption.get!).id = ((buildVolley [exTurnY]).toOption.get!).id ∧
    ((buildVolley [exTurnX]).toOption.get!).id.length = 16 :=
  volley_id_content_addressed [exTurnX] [exTurnY] _ _
    (by with_unfolding_all rfl) (by with_unfolding_all rfl)
    (by with_unfolding_all rfl) (by with_unfolding_all rfl)
    (fun x => Iff.rfl)

theorem turnsGo_flatMap (T : ℚ) :
    ∀ (l : List Message) (prev : Message) (cur : List Message) (s : Int),
      (turnsGo T prev cur s l).flatMap (fun t => t.messages) = cur ++ l := by
  intro l
  induction l with
  | nil => intro prev cur s; simp [turnsGo, createTurn]
  | cons m rest ih =>
    intro prev cur s
    by_cases hc : m.from_id ≠ s ∨ getGapSeconds prev.sent_at m.sent_at > T
    · simp only [turnsGo]
      rw [if_pos hc]
      simp only [List.flatMap_cons, ih]
      simp [createTurn]
    · simp only [turnsGo]
      rw [if_neg hc, ih]
      simp

/-- Invariant of the `messagesToTurns` scan loop: starting from a non-empty
run `cur` ending in `prev`, all of whose messages have sender `s` and whose
adjacent messages satisfy `inTurnStep`, every emitted turn is a non-empty
sender-homogeneous `inTurnStep`-chain, and adjacent emitted turns are
separated by a justified split. -/
theorem turnsGo_spec (T : ℚ) :
    ∀ (l : List Message) (cur : List Message) (s : Int) (prev : Message),
      (∃ front, cur = front ++ [prev]) →
      (∀ m ∈ cur, m.from_id = s) →
      cur.Chain' (inTurnStep T) →
      (∀ t ∈ turnsGo T prev cur s l,
          t.messages ≠ [] ∧ t.messages.Chain' (inTurnStep T) ∧
          ∀ m ∈ t.messages, m.from_id = t.sender_id) ∧
      (turnsGo T prev cur s l).Chain' (turnBoundaryOk T) ∧
      ∃ t0 r, turnsGo T prev cur s l = t0 :: r ∧ t0.messages.head? = cur.head? := by
  intro l
  induction l with
  | nil =>
    intro cur s prev hshape hsend hchain
    refine ⟨?_, ?_, ?_⟩
    · intro t ht
      simp only [turnsGo, List.mem_singleton] at ht
      subst ht
      obtain ⟨front, rfl⟩ := hshape
      exact ⟨by simp [createTurn], hchain, hsend⟩
    · exact List.chain'_singleton _
    · exact ⟨createTurn cur s, [], rfl, rfl⟩
  | cons m rest ih =>
    intro cur s prev hshape hsend hchain
    have hprevmem : prev ∈ cur := by
      obtain ⟨front, rfl⟩ := hshape
      exact List.mem_append_right front (List.mem_singleton_self prev)
    have hprevs : prev.from_id = s := hsend prev hprevmem
    have hlast : cur.getLast? = some prev := by
      obtain ⟨front, rfl⟩ := hshape
      exact List.getLast?_concat front
    by_cases hc : m.from_id ≠ s ∨ getGapSeconds prev.sent_at m.sent_at > T
    · have hgo : turnsGo T prev cur s (m :: rest) =
          createTurn cur s :: turnsGo T m [m] m.from_id rest := by
        simp only [turnsGo]
        rw [if_pos hc]
      obtain ⟨ihA, ihB, t0, r, hr, hhead⟩ :=
        ih [m] m.from_id m ⟨[], rfl⟩ (by simp) (List.chain'_singleton m)
      refine ⟨?_, ?_, ?_⟩
      · intro t ht
        rw [hgo] at ht
        rcases List.mem_cons.mp ht with h1 | h2
        · subst h1
          obtain ⟨front, rfl⟩ := hshape
          exact ⟨by simp [createTurn], hchain, hsend⟩
        · exact ihA t h2
      · rw [hgo]
        refine List.chain'_cons'.mpr ⟨?_, ihB⟩
        intro y hy
        rw [hr] at hy
        simp only [List.head?_cons, Option.mem_def, Option.some.injEq] at hy
        subst hy
        intro a b ha hb
        have ha' : a = prev := by
          have : cur.getLast? = some a := ha
          rw [hlast] at this
          simpa using this.symm
        have hb' : b = m := by
          rw [hhead] at hb
          simpa using hb.symm
        subst ha'
        subst hb'
        rcases hc with h | h
        · exact Or.inl (by rw [hprevs]; exact h)
        · exact Or.inr h
      · exact ⟨createTurn cur s, turnsGo T m [m] m.from_id rest, hgo, rfl⟩
    · push_neg at hc
      obtain ⟨hcs, hcg⟩ := hc
      have hgo : turnsGo T prev cur s (m :: rest) = turnsGo T m (cur ++ [m]) s rest := by
        simp only [turnsGo]
        rw [if_neg (by push_neg; exact ⟨hcs, hcg⟩)]
      have hshape' : ∃ front, cur ++ [m] = front ++ [m] := ⟨cur, rfl⟩
      have hsend' : ∀ x ∈ cur ++ [m], x.from_id = s := by
        intro x hx
        rcases List.mem_append.mp hx with h | h
        · exact hsend x h
        · rw [List.mem_singleton.mp h, hcs]
      have hchain' : (cur ++ [m]).Chain' (inTurnStep T) := by
        refine List.chain'_append.mpr ⟨hchain, List.chain'_singleton m, ?_⟩
        intro x hx y hy
        have hx' : x = prev := by
          rw [hlast] at hx
          simpa using hx.symm
        have hy' : y = m := by simpa using hy.symm
        subst hx'
        subst hy'
        exact ⟨by rw [hcs, hprevs], by simpa using hcg⟩
      obtain ⟨ihA, ihB, t0, r, hr, hhead⟩ := ih (cur ++ [m]) s m hshape' hsend' hchain'
      refine ⟨?_, ?_, ?_⟩
      · intro t ht
        rw [hgo] at ht
        exact ihA t ht
      · rw [hgo]
        exact ihB
      · refine ⟨t0, r, by rw [hgo, hr], ?_⟩
        rw [hhead]
        obtain ⟨front, rfl⟩ := hshape
        rcases front with _ | ⟨c, cs⟩ <;> rfl

theorem sortMessages_perm (l : List Message) : (sortMessages l).Perm l :=
  sortLe_perm _ l

theorem sortMessages_ne_nil (m0 : Message) (ms : List Message) :
    sortMessages (m0 :: ms) ≠ [] := by
  intro h
  have hlen := (sortMessages_perm (m0 :: ms)).length_eq
  rw [h] at hlen
  simp at hlen

/-- C4: `messagesToTurns` starts a new turn exactly when the sender changes
or the gap strictly exceeds the (explicitly supplied, non-zero) turn
timeout: within each returned turn adjacent messages have the same sender
and gaps ≤ T, adjacent turns are separated by a sender change or a gap > T,
and the turns concatenate to the timestamp-sorted input.  On the concrete
scenario (t = 0s A, 30s A, 65s B, 95s B, 400s A with T = 60s) it returns
exactly 3 turns with sender sequence A, B, A. -/
theorem messagesToTurns_split_exactly :
    (∀ (msgs : List Message) (T : ℚ), T ≠ 0 →
      (∀ t ∈ messagesToTurns msgs (some T),
          t.messages ≠ [] ∧ t.messages.Chain' (inTurnStep T) ∧
          ∀ m ∈ t.messages, m.from_id = t.sender_id) ∧
      (messagesToTurns msgs (some T)).Chain' (turnBoundaryOk T) ∧
      (messagesToTurns msgs (some T)).flatMap (fun t => t.messages) = sortMessages msgs) ∧
    (messagesToTurns exC4Msgs (some 60)).map (fun t => t.sender_id) = [1, 2, 1] ∧
    (messagesToTurns exC4Msgs (some 60)).length = 3 := by
  refine ⟨?_, by with_unfolding_all rfl, by with_unfolding_all rfl⟩
  intro msgs T hT
  cases msgs with
  | nil =>
    refine ⟨by simp [messagesToTurns], by simp [messagesToTurns], ?_⟩
    simp [messagesToTurns, sortMessages, sortLe]
  | cons m0 ms =>
    have hmt : messagesToTurns (m0 :: ms) (some T) =
        turnsOfSorted T (sortMessages (m0 :: ms)) := by
      simp only [messagesToTurns, effTimeout]
      rw [if_neg hT]
    rcases hs : sortMessages (m0 :: ms) with _ | ⟨m, rest⟩
    · exact absurd hs (sortMessages_ne_nil m0 ms)
    · rw [hmt, hs]
      simp only [turnsOfSorted]
      obtain ⟨hA, hB, -⟩ :=
        turnsGo_spec T rest [m] m.from_id m ⟨[], rfl⟩ (by simp) (List.chain'_singleton m)
      refine ⟨hA, hB, ?_⟩
      rw [turnsGo_flatMap]
      rfl

/-- Witness for C4 instantiating the universally quantified part at the
concrete scenario with T = 60. -/
theorem messagesToTurns_split_exactly_witness :
    (messagesToTurns exC4Msgs (some 60)).Chain' (turnBoundaryOk 60) ∧
    (messagesToTurns exC4Msgs (some 60)).flatMap (fun t => t.messages) =
      sortMessages exC4Msgs :=
  ⟨(messagesToTurns_split_exactly.1 exC4Msgs 60 (by norm_num)).2.1,
   (messagesToTurns_split_exactly.1 exC4Msgs 60 (by norm_num)).2.2⟩

/-- C5: the concatenation of the message lists of the turns returned by
`messagesToTurns` is a permutation of the input message list — no message
dropped, none duplicated (for any input, empty included, and any timeout
option). -/
theorem messagesToTurns_coverage (msgs : List Message) (topt : Option ℚ) :
    ((messagesToTurns msgs topt).flatMap (fun t => t.messages)).Perm msgs := by
  cases msgs with
  | nil => simp [messagesToTurns]
  | cons m0 ms =>
    simp only [messagesToTurns]
    rcases hs : sortMessages (m0 :: ms) with _ | ⟨m, rest⟩
    · exact absurd hs (sortMessages_ne_nil m0 ms)
    · simp only [turnsOfSorted]
      rw [turnsGo_flatMap]
      have hperm : (m :: rest).Perm (m0 :: ms) := by
        rw [← hs]
        exact sortMessages_perm (m0 :: ms)
      simpa using hperm

/-- Invariant of the `turnsToVolleys` accumulation loop: starting from a
non-empty run `cur` ending in `prev` whose adjacent turns are within the
timeout, the loop succeeds and returns non-empty volleys whose internal
gaps are ≤ T, with adjacent volleys separated by a gap > T. -/
theorem volleysGo_spec (T : ℚ) :
    ∀ (l : List Turn) (cur : List Turn) (prev : Turn),
      (∃ front, cur = front ++ [prev]) →
      cur.Chain' (inVolleyStep T) →
      ∃ vs, volleysGo T prev cur l = Except.ok vs ∧
        (∀ v ∈ vs, v.turns ≠ [] ∧ v.turns.Chain' (inVolleyStep T)) ∧
        vs.Chain' (volleyBoundaryOk T) ∧
        ∃ v0 r, vs = v0 :: r ∧ v0.turns.head? = cur.head? := by
  intro l
  induction l with
  | nil =>
    intro cur prev hshape hchain
    obtain ⟨c, cs, hcons⟩ : ∃ c cs, cur = c :: cs := by
      obtain ⟨front, rfl⟩ := hshape
      cases front with
      | nil => exact ⟨prev, [], rfl⟩
      | cons f fs => exact ⟨f, fs ++ [prev], rfl⟩
    rcases hb : buildVolley cur with e | V
    · rw [hcons, buildVolley_cons] at hb
      simp at hb
    · have hf := buildVolley_ok_fields cur V hb
      refine ⟨[V], ?_, ?_, List.chain'_singleton V, V, [], rfl, ?_⟩
      · simp only [volleysGo, hb]
      · intro v hv
        rw [List.mem_singleton] at hv
        subst hv
        exact ⟨by rw [hf.2.1]; exact hf.1, by rw [hf.2.1]; exact hchain⟩
      · rw [hf.2.1]
  | cons t rest ih =>
    intro cur prev hshape hchain
    have hlast : cur.getLast? = some prev := by
      obtain ⟨front, rfl⟩ := hshape
      exact List.getLast?_concat front
    by_cases hgap : getGapSeconds prev.end_time t.start_time > T
    · obtain ⟨c, cs, hcons⟩ : ∃ c cs, cur = c :: cs := by
        obtain ⟨front, rfl⟩ := hshape
        cases front with
        | nil => exact ⟨prev, [], rfl⟩
        | cons f fs => exact ⟨f, fs ++ [prev], rfl⟩
      rcases hb : buildVolley cur with e | V
      · rw [hcons, buildVolley_cons] at hb
        simp at hb
      · have hf := buildVolley_ok_fields cur V hb
        obtain ⟨vs', hvs', ihA, ihB, v0, r, hv0, hhead⟩ :=
          ih [t] t ⟨[], rfl⟩ (List.chain'_singleton t)
        have hgo : volleysGo T prev cur (t :: rest) = Except.ok (V :: vs') := by
          simp only [volleysGo]
          rw [if_pos hgap, hb, hvs']
        refine ⟨V :: vs', hgo, ?_, ?_, V, vs', rfl, ?_⟩
        · intro v hv
          rcases List.mem_cons.mp hv with h1 | h2
          · subst h1
            exact ⟨by rw [hf.2.1]; exact hf.1, by rw [hf.2.1]; exact hchain⟩
          · exact ihA v h2
        · refine List.chain'_cons'.mpr ⟨?_, ihB⟩
          intro y hy
          rw [hv0] at hy
          simp only [List.head?_cons, Option.mem_def, Option.some.injEq] at hy
          subst hy
          intro a b ha hb'
          have ha' : a = prev := by
            rw [hf.2.1, hlast] at ha
            simpa using ha.symm
          have hb'' : b = t := by
            rw [hhead] at hb'
            simpa using hb'.symm
          subst ha'
          subst hb''
          exact hgap
        · rw [hf.2.1]
    · have hgo : volleysGo T prev cur (t :: rest) = volleysGo T t (cur ++ [t]) rest := by
        simp only [volleysGo]
        rw [if_neg hgap]
      have hchain' : (cur ++ [t]).Chain' (inVolleyStep T) := by
        refine List.chain'_append.mpr ⟨hchain, List.chain'_singleton t, ?_⟩
        intro x hx y hy
        have hx' : x = prev := by
          rw [hlast] at hx
          simpa using hx.symm
        have hy' : y = t := by simpa using hy.symm
        subst hx'
        subst hy'
        exact le_of_not_lt hgap
      obtain ⟨vs', hvs', ihA, ihB, v0, r, hv0, hhead⟩ :=
        ih (cur ++ [t]) t ⟨cur, rfl⟩ hchain'
      refine ⟨vs', by rw [hgo, hvs'], ihA, ihB, v0, r, hv0, ?_⟩
      rw [hhead]
      obtain ⟨front, rfl⟩ := hshape
      rcases front with _ | ⟨f, fs⟩ <;> rfl

/-- C6: for a `turnsToVolleys` run, with T the volley timeout used for that
run, every returned volley is non-empty, chronologically adjacent turns
inside the same volley are separated by gaps ≤ T, and the gap between the
last turn of a volley and the first turn of the next strictly exceeds T. -/
theorem turnsToVolleys_gap_invariants (turns : List Turn) (topt : Option ℚ)
    (vs : List Volley) (h : turnsToVolleys turns topt = Except.ok vs) :
    (∀ v ∈ vs, v.turns ≠ [] ∧
        v.turns.Chain' (inVolleyStep (effThreadletTimeout turns topt))) ∧
    vs.Chain' (volleyBoundaryOk (effThreadletTimeout turns topt)) := by
  cases turns with
  | nil =>
    simp only [turnsToVolleys] at h
    have hvs : vs = [] := by
      injection h with h'
      exact h'.symm
    subst hvs
    exact ⟨by simp, List.chain'_nil⟩
  | cons t rest =>
    simp only [turnsToVolleys] at h
    obtain ⟨vs', hvs', ihA, ihB, -⟩ :=
      volleysGo_spec (effThreadletTimeout (t :: rest) topt) rest [t] t ⟨[], rfl⟩
        (List.chain'_singleton t)
    rw [hvs'] at h
    have hveq : vs' = vs := by
      injection h with h'
    subst hveq
    exact ⟨ihA, ihB⟩

/-- Witness for C6 at three concrete turns with timeout 320 s: the 300 s gap
keeps the first two turns in one volley, the 350 s gap opens a second. -/
theorem turnsToVolleys_gap_invariants_witness :
    (∀ v ∈ (turnsToVolleys [exTurnA, exTurnB, exTurnA2] (some 320)).toOption.get!,
        v.turns ≠ [] ∧ v.turns.Chain'
          (inVolleyStep (effThreadletTimeout [exTurnA, exTurnB, exTurnA2] (some 320)))) ∧
    ((turnsToVolleys [exTurnA, exTurnB, exTurnA2] (some 320)).toOption.get!).Chain'
      (volleyBoundaryOk (effThreadletTimeout [exTurnA, exTurnB, exTurnA2] (some 320))) :=
  turnsToVolleys_gap_invariants [exTurnA, exTurnB, exTurnA2] (some 320) _
    (by with_unfolding_all rfl)

theorem getD_mem (l : List ℚ) : ∀ (i : Nat), i < l.length → l.getD i 0 ∈ l := by
  induction l with
  | nil => intro i h; simp at h
  | cons a as ih =>
    intro i h
    cases i with
    | zero => simp
    | succ n =>
      simp only [List.getD_cons_succ]
      exact List.mem_cons_of_mem a (ih n (by simpa using h))

theorem getD_const (l : List ℚ) (c : ℚ) (hall : ∀ x ∈ l, x = c) (i : Nat)
    (h : i < l.length) : l.getD i 0 = c :=
  hall _ (getD_mem l i h)

theorem mem_sortQ (l : List ℚ) (x : ℚ) : x ∈ sortQ l ↔ x ∈ l := by
  rw [sortQ]; exact mem_sortLe _ _ _

theorem length_sortQ (l : List ℚ) : (sortQ l).length = l.length := by
  rw [sortQ]; exact length_sortLe _ _

/-- On a non-empty list whose elements are all `c`, `getPercentileTimeout`
returns `c` at every percentile (the clamped index is always in range). -/
theorem getPercentileTimeout_const (gaps : List ℚ) (p c : ℚ)
    (hne : gaps ≠ []) (hall : ∀ x ∈ gaps, x = c) :
    getPercentileTimeout gaps p = c := by
  have hlen : gaps.length ≠ 0 := by
    intro h
    exact hne (List.length_eq_zero.mp h)
  have halls : ∀ x ∈ sortQ gaps, x = c := by
    intro x hx
    exact hall x ((mem_sortQ gaps x).mp hx)
  simp only [getPercentileTimeout]
  rw [if_neg hlen]
  apply getD_const _ c halls
  have hql : (sortQ gaps).length = gaps.length := length_sortQ gaps
  set k : Int := Int.ceil (p / 100 * ((sortQ gaps).length : ℚ)) with hk
  omega

/-- C7: `getAdaptiveTimeout` agrees with `getPercentileTimeout` on every gap
list with fewer than 5 samples and on every constant (zero-variance) gap
list; in particular `getAdaptiveTimeout [1,1,1,1,1] 85 = 1`. -/
theorem getAdaptiveTimeout_percentile_agreement :
    (∀ (gaps : List ℚ) (p : ℚ), gaps.length < 5 →
        getAdaptiveTimeout gaps p = getPercentileTimeout gaps p) ∧
    (∀ (gaps : List ℚ) (p c : ℚ), (∀ x ∈ gaps, x = c) →
        getAdaptiveTimeout gaps p = getPercentileTimeout gaps p) ∧
    getAdaptiveTimeout [1, 1, 1, 1, 1] 85 = 1 := by
  have hsmall : ∀ (gaps : List ℚ) (p : ℚ), gaps.length < 5 →
      getAdaptiveTimeout gaps p = getPercentileTimeout gaps p := by
    intro gaps p h
    simp only [getAdaptiveTimeout]
    rw [if_pos h]
  refine ⟨hsmall, ?_, by with_unfolding_all rfl⟩
  intro gaps p c hall
  by_cases h5 : gaps.length < 5
  · exact hsmall gaps p h5
  · push_neg at h5
    have hne : gaps ≠ [] := by
      intro h
      rw [h] at h5
      simp at h5
    have hql : (sortQ gaps).length = gaps.length := length_sortQ gaps
    have halls : ∀ x ∈ sortQ gaps, x = c := by
      intro x hx
      exact hall x ((mem_sortQ gaps x).mp hx)
    have hymin : (sortQ gaps).getD 0 0 = c := getD_const _ c halls 0 (by omega)
    have hymax : (sortQ gaps).getD ((sortQ gaps).length - 1) 0 = c :=
      getD_const _ c halls _ (by omega)
    have hknee : findKneePoint (sortQ gaps) = (sortQ gaps).length / 2 := by
      simp only [findKneePoint]
      rw [if_neg (by omega), if_pos (by rw [hymin, hymax]; exact sub_self c)]
    rw [getPercentileTimeout_const gaps p c hne hall]
    simp only [getAdaptiveTimeout]
    rw [if_neg (by omega), hknee, if_pos ⟨by omega, by omega⟩]
    exact getD_const _ c halls _ (by omega)

/-- Witness for C7: a list below the sample threshold and a constant list of
six samples. -/
theorem getAdaptiveTimeout_percentile_agreement_witness :
    getAdaptiveTimeout [7] 85 = getPercentileTimeout [7] 85 ∧
    getAdaptiveTimeout [4, 4, 4, 4, 4, 4] 85 = getPercentileTimeout [4, 4, 4, 4, 4, 4] 85 :=
  ⟨getAdaptiveTimeout_percentile_agreement.1 [7] 85 (by norm_num),
   getAdaptiveTimeout_percentile_agreement.2.1 [4, 4, 4, 4, 4, 4] 85 4
     (by intro x hx; simpa using hx)⟩

theorem effTimeout_zero (auto : ℚ) : effTimeout auto (some 0) = effTimeout auto none := by
  simp [effTimeout]

/-- C9: explicitly supplying a timeout of 0 to any of the three phases is
identical to omitting the timeout — the falsy guard discards the zero and
derives the adaptive timeout from the gap distribution instead. -/
theorem zero_timeout_treated_as_absent :
    (∀ msgs : List Message, messagesToTurns msgs (some 0) = messagesToTurns msgs none) ∧
    (∀ turns : List Turn, turnsToVolleys turns (some 0) = turnsToVolleys turns none) ∧
    (∀ volleys : List Volley,
        volleysToSessions volleys (some 0) = volleysToSessions volleys none) := by
  refine ⟨?_, ?_, ?_⟩
  · intro msgs
    cases msgs with
    | nil => rfl
    | cons m ms =>
      simp only [messagesToTurns]
      rw [effTimeout_zero]
  · intro turns
    cases turns with
    | nil => rfl
    | cons t ts =>
      simp only [turnsToVolleys, effThreadletTimeout]
      rw [effTimeout_zero]
  · intro volleys
    cases volleys with
    | nil => rfl
    | cons v vs =>
      simp only [volleysToSessions]
      rw [effTimeout_zero]

/-- The second component of the running-argmax fold lands in `P` whenever
every candidate index is in `P`, the candidate list is non-empty when the
accumulator starts below zero, and the scores are non-negative. -/
theorem foldl_argmax_mem (f : Nat → ℚ) (hf : ∀ i, 0 ≤ f i) (P : Nat → Prop) :
    ∀ (l : List Nat) (acc : ℚ × Nat),
      (∀ i ∈ l, P i) → (acc.1 < 0 → l ≠ []) → (0 ≤ acc.1 → P acc.2) →
      P ((l.foldl (fun a i => if f i > a.1 then (f i, i) else a) acc).2) := by
  intro l
  induction l with
  | nil =>
    intro acc _ hne hP
    by_cases h : 0 ≤ acc.1
    · exact hP h
    · exact absurd rfl (hne (not_le.mp h))
  | cons i is ih =>
    intro acc hmem hne hP
    simp only [List.foldl_cons]
    by_cases hgt : f i > acc.1
    · rw [if_pos hgt]
      exact ih (f i, i) (fun j hj => hmem j (List.mem_cons_of_mem i hj))
        (fun hneg => absurd (hf i) (not_le.mpr hneg))
        (fun _ => hmem i (List.mem_cons_self i is))
    · rw [if_neg hgt]
      exact ih acc (fun j hj => hmem j (List.mem_cons_of_mem i hj))
        (fun hneg => absurd (hf i) (not_le.mpr (lt_of_le_of_lt (not_lt.mp hgt) hneg)))
        hP

/-- C10: on every gap list with at least 5 samples, the knee index is
strictly interior, so `getAdaptiveTimeout` always returns the knee value of
the sorted list and never the percentile fallback. -/
theorem findKneePoint_interior (gaps : List ℚ) (p : ℚ) (h5 : 5 ≤ gaps.length) :
    0 < findKneePoint (sortQ gaps) ∧
    findKneePoint (sortQ gaps) < (sortQ gaps).length - 1 ∧
    getAdaptiveTimeout gaps p = (sortQ gaps).getD (findKneePoint (sortQ gaps)) 0 := by
  have hql : (sortQ gaps).length = gaps.length := length_sortQ gaps
  have hint : 0 < findKneePoint (sortQ gaps) ∧
      findKneePoint (sortQ gaps) < (sortQ gaps).length - 1 := by
    simp only [findKneePoint]
    rw [if_neg (by omega)]
    by_cases h0 : (sortQ gaps).getD ((sortQ gaps).length - 1) 0 - (sortQ gaps).getD 0 0 = 0
    · rw [if_pos h0]
      constructor <;> omega
    · rw [if_neg h0]
      have hP := foldl_argmax_mem
        (fun i => |(i : ℚ) / (((sortQ gaps).length : ℚ) - 1) -
          ((sortQ gaps).getD i 0 - (sortQ gaps).getD 0 0) /
            ((sortQ gaps).getD ((sortQ gaps).length - 1) 0 - (sortQ gaps).getD 0 0)|)
        (fun i => abs_nonneg _)
        (fun k => 1 ≤ k ∧ k ≤ (sortQ gaps).length - 2)
        ((List.range ((sortQ gaps).length - 2)).map (fun j => j + 1)) (-1, 0)
        (by
          intro i hi
          obtain ⟨j, hj, rfl⟩ := List.mem_map.mp hi
          have := List.mem_range.mp hj
          omega)
        (by
          intro _ hnil
          rw [List.map_eq_nil_iff, List.range_eq_nil] at hnil
          omega)
        (by
          intro habs
          exact absurd habs (by norm_num))
      exact ⟨hP.1, Nat.lt_of_le_of_lt hP.2 (by omega)⟩
  refine ⟨hint.1, hint.2, ?_⟩
  simp only [getAdaptiveTimeout]
  rw [if_neg (by omega), if_pos hint]

/-- Witness for C10 at the concrete gap list `[1, 2, 3, 4, 100]`. -/
theorem findKneePoint_interior_witness :
    0 < findKneePoint (sortQ [1, 2, 3, 4, 100]) ∧
    findKneePoint (sortQ [1, 2, 3, 4, 100]) < (sortQ [1, 2, 3, 4, 100]).length - 1 ∧
    getAdaptiveTimeout [1, 2, 3, 4, 100] 85 =
      (sortQ [1, 2, 3, 4, 100]).getD (findKneePoint (sortQ [1, 2, 3, 4, 100])) 0 :=
  findKneePoint_interior [1, 2, 3, 4, 100] 85 (by norm_num)

end Libtard
